import Mathlib

/-!
Shallow embedding of the scholar frontend's source-to-document position
correlation code, with theorems checking the specification's claims.

JavaScript strings are modelled as `String` (or `List Char` where character
arithmetic dominates); `charCodeAt` is modelled by `Char.toNat`, valid for
code points in the basic multilingual plane, which covers all identifiers
the code hashes.  JavaScript numbers appearing as character offsets are
modelled as `Int` (they may in principle be negative), counts and lengths as
`Nat`, and fractional quantities (delays, coordinates, opacity) as `Rat`.
-/

namespace Colors

/-- The fixed ten-colour palette from `frontend/lib/constants/colors.ts`. -/
def HIGHLIGHT_COLORS : List String :=
  ["#fbbf24", "#60a5fa", "#34d399", "#f472b6", "#a78bfa",
   "#fb7185", "#f59e0b", "#10b981", "#8b5cf6", "#ef4444"]

/-- `getHighlightColor(index)` = `HIGHLIGHT_COLORS[index % HIGHLIGHT_COLORS.length]`. -/
def getHighlightColor (index : ℕ) : String :=
  HIGHLIGHT_COLORS.getD (index % HIGHLIGHT_COLORS.length) ""

/-- JavaScript `ToInt32`: reduce an integer modulo 2^32 into the signed range
`[-2^31, 2^31)`.  This is what `hash & hash` performs on a double. -/
def toInt32 (n : ℤ) : ℤ :=
  let m := n % 4294967296
  if m < 2147483648 then m else m - 4294967296

/-- One iteration of the hash loop in `getHighlightColorBySourceId`:
`hash = ((hash << 5) - hash) + char; hash = hash & hash`.
The shift coerces to int32 first; the subtraction and addition are exact
double arithmetic; the final `& hash` truncates to int32. -/
def hashStep (h : ℤ) (c : ℕ) : ℤ :=
  toInt32 (toInt32 (h * 32) - h + c)

/-- The full hash of a source id (fold of `hashStep` over its characters,
starting from 0). -/
def hashString (s : String) : ℤ :=
  s.toList.foldl (fun h c => hashStep h c.toNat) 0

/-- `getHighlightColorBySourceId(sourceId, totalSources)`:
`Math.abs(hash) % totalSources` selects the palette index.  Call sites always
pass a positive `totalSources`. -/
def getHighlightColorBySourceId (sourceId : String) (totalSources : ℕ) : String :=
  getHighlightColor ((hashString sourceId).natAbs % totalSources)

end Colors

namespace DocViewer

/-- The `Highlight` interface of `DocumentViewer.tsx` (the fields the
plain-text pipeline reads and writes). -/
structure Highlight where
  id : String
  startIndex : ℤ
  endIndex : ℤ
  color : String
  text : String
deriving Repr, DecidableEq

/-- The visibility filter of `renderHighlightedText`: keep a highlight iff its
`startIndex` lies in `[startCharIndex, startCharIndex + text.length)`. -/
def visibleHighlights (startCharIndex : ℤ) (textLen : ℕ) (hs : List Highlight) :
    List Highlight :=
  hs.filter (fun h =>
    decide (startCharIndex ≤ h.startIndex ∧ h.startIndex < startCharIndex + textLen))

/-- The adjustment map of `renderHighlightedText`:
`adjustedStart = Math.max(0, startIndex - startCharIndex)`,
`adjustedEnd = Math.min(text.length, endIndex - startCharIndex)`. -/
def adjustHighlight (startCharIndex : ℤ) (textLen : ℕ) (h : Highlight) : Highlight :=
  { h with
    startIndex := max 0 (h.startIndex - startCharIndex)
    endIndex := min (textLen : ℤ) (h.endIndex - startCharIndex) }

/-- The validity filter of `renderHighlightedText`:
`startIndex >= 0 && endIndex > startIndex && endIndex <= text.length`. -/
def isValidAdjusted (textLen : ℕ) (h : Highlight) : Bool :=
  decide (0 ≤ h.startIndex ∧ h.startIndex < h.endIndex ∧ h.endIndex ≤ (textLen : ℤ))

/-- The keep/clip/drop stage of `renderHighlightedText`, composed exactly as in
the source: visibility filter, then adjustment map, then validity filter. -/
def adjustedPipeline (startCharIndex : ℤ) (textLen : ℕ) (hs : List Highlight) :
    List Highlight :=
  ((visibleHighlights startCharIndex textLen hs).map
      (adjustHighlight startCharIndex textLen)).filter (isValidAdjusted textLen)

/-- Modelled from the spec: the intersection-based clipping the specification
describes for plain-text mode — keep references whose `[start_index, end_index)`
intersects the window, clip to
`adjusted_start = max(0, start_index - w_start)`,
`adjusted_end = min(window_length, end_index - w_start)`, and drop references
that clip to an empty or invalid span.  Stated only to compare with
`adjustedPipeline`, which is the code's behaviour. -/
def specClipPipeline (wStart : ℤ) (windowLen : ℕ) (hs : List Highlight) :
    List Highlight :=
  (hs.filter (fun h =>
      decide (h.startIndex < wStart + windowLen ∧ wStart < h.endIndex))).filterMap
    (fun h =>
      let a := max 0 (h.startIndex - wStart)
      let b := min (windowLen : ℤ) (h.endIndex - wStart)
      if 0 ≤ a ∧ a < b ∧ b ≤ (windowLen : ℤ) then
        some { h with startIndex := a, endIndex := b }
      else none)

end DocViewer

namespace QASessionHook

/-- A `QAMessage` as declared in `frontend/lib/api.ts`. -/
structure QAMessage where
  id : String
  type : String
  content : String
  timestamp : String
deriving Repr, DecidableEq

/-- A `QASession` as declared in `frontend/lib/api.ts` (the fields the hook
reads). -/
structure QASession where
  session_id : String
  file_id : String
  filename : String
  created_at : String
  messages : List QAMessage
  total_messages : ℕ
deriving Repr, DecidableEq

/-- The `QASessionState` of the `useQASession` hook. -/
structure QASessionState where
  session : Option QASession
  isLoading : Bool
  error : Option String
  isCreating : Bool
  isAsking : Bool
deriving Repr, DecidableEq

/-- The state update `askQuestion` performs before calling the API:
`setSessionState(prev => ({ ...prev, isAsking: true, error: null }))`. -/
def askQuestionStart (st : QASessionState) : QASessionState :=
  { st with isAsking := true, error := none }

/-- The state update in `askQuestion`'s catch block:
`setSessionState(prev => ({ ...prev, isAsking: false, error: errorMessage }))`. -/
def askQuestionCatch (errMsg : String) (st : QASessionState) : QASessionState :=
  { st with isAsking := false, error := some errMsg }

/-- The net state transition of `askQuestion` when `apiService.askQuestion`
rejects: if there is no active session the function throws before any update;
otherwise it performs the start update, the API call fails, and the catch
update runs. -/
def askQuestionOnApiFailure (st : QASessionState) (errMsg : String) :
    QASessionState :=
  if st.session.isSome then askQuestionCatch errMsg (askQuestionStart st) else st

end QASessionHook

namespace Retry

/-- The retry configuration of `useRetry` (defaults: `maxAttempts = 3`,
`baseDelay = 1000`, `maxDelay = 10000`, `backoffMultiplier = 2`). -/
structure RetryConfig where
  maxAttempts : ℕ
  baseDelay : ℚ
  maxDelay : ℚ
  backoffMultiplier : ℚ
deriving Repr, DecidableEq

/-- The default configuration of `useRetry`. -/
def defaultConfig : RetryConfig :=
  { maxAttempts := 3, baseDelay := 1000, maxDelay := 10000, backoffMultiplier := 2 }

/-- `calculateDelay(attempt)`:
`Math.min(baseDelay * Math.pow(backoffMultiplier, attempt), maxDelay)`. -/
def calculateDelay (cfg : RetryConfig) (attempt : ℕ) : ℚ :=
  min (cfg.baseDelay * cfg.backoffMultiplier ^ attempt) cfg.maxDelay

/-- The observable outcome of one run of `retry`: the delays waited between
attempts, the returned value (`none` models the `null` returned after the
final failure), and how many times the operation was invoked. -/
structure RetryResult (α : Type) where
  delays : List ℚ
  result : Option α
  calls : ℕ
deriving Repr

/-- The `for (let attempt = 0; attempt <= maxAttempts; attempt++)` loop of
`retry`.  `op attempt` is the operation's outcome on that attempt (`some r`
models a resolved promise, `none` a rejection); `remaining` is
`maxAttempts - attempt`.  On failure with `attempt === maxAttempts` the loop
breaks without waiting; otherwise it waits `calculateDelay attempt` and
retries. -/
def retryGo {α : Type} (op : ℕ → Option α) (cfg : RetryConfig) :
    ℕ → ℕ → RetryResult α
  | attempt, remaining =>
    match op attempt with
    | some r => ⟨[], some r, 1⟩
    | none =>
      match remaining with
      | 0 => ⟨[], none, 1⟩
      | n + 1 =>
        let rest := retryGo op cfg (attempt + 1) n
        ⟨calculateDelay cfg attempt :: rest.delays, rest.result, rest.calls + 1⟩

/-- A full run of `retry`, starting at attempt 0 with `maxAttempts` retries
remaining. -/
def retryRun {α : Type} (op : ℕ → Option α) (cfg : RetryConfig) : RetryResult α :=
  retryGo op cfg 0 cfg.maxAttempts

end Retry

namespace Pagination

/-- JavaScript `text.split('\n')` on a string modelled as a character list:
the empty string splits to `[""]`, and each `'\n'` separates fields. -/
def splitNl : List Char → List (List Char)
  | [] => [[]]
  | c :: rest =>
    let r := splitNl rest
    if c = '\n' then [] :: r
    else
      match r with
      | [] => [[c]]
      | h :: t => (c :: h) :: t

/-- JavaScript `lines.join('\n')`. -/
def joinNl : List (List Char) → List Char
  | [] => []
  | [l] => l
  | l :: rest => l ++ '\n' :: joinNl rest

/-- The line number `navigateToHighlight` (and `getPagesWithHighlights`)
computes for a highlight:
`lines.slice(0, highlight.startIndex).join('\n').split('\n').length`.
Note `lines.slice(0, startIndex)` slices the array of lines by the
character offset `startIndex`. -/
def highlightLineOf (text : List Char) (startIndex : ℕ) : ℕ :=
  (splitNl (joinNl ((splitNl text).take startIndex))).length

/-- JavaScript `Math.ceil(a / b)` for natural `a` and positive `b`. -/
def jsCeilDiv (a b : ℕ) : ℕ := (a + b - 1) / b

/-- The target page `navigateToHighlight` computes:
`Math.ceil(highlightLine / itemsPerPage)`. -/
def targetPageOf (text : List Char) (startIndex itemsPerPage : ℕ) : ℕ :=
  jsCeilDiv (highlightLineOf text startIndex) itemsPerPage

/-- `getPagesWithHighlights`: the set (modelled as an insertion-ordered
duplicate-free list) of target pages of the given highlight start offsets. -/
def pagesWithHighlights (text : List Char) (itemsPerPage : ℕ)
    (starts : List ℕ) : List ℕ :=
  starts.foldl (fun acc s =>
    let p := targetPageOf text s itemsPerPage
    if p ∈ acc then acc else acc ++ [p]) []

/-- Modelled from the spec: the 1-based line in which character offset `c`
falls — one more than the number of newline characters strictly before `c` —
and from it the pagination page whose line range contains that line.  Stated
only to compare with `targetPageOf`, which is the code's behaviour. -/
def specPageOfOffset (text : List Char) (c itemsPerPage : ℕ) : ℕ :=
  jsCeilDiv ((text.take c).count '\n' + 1) itemsPerPage

/-- A 60-line document, one character per line. -/
def doc60 : List Char := joinNl (List.replicate 60 ['a'])

end Pagination

namespace PDF

/-- An extracted text block of a page, with its bounding box
`[x0, y0, x1, y1]`. -/
structure TextBlock where
  x0 : ℚ
  y0 : ℚ
  x1 : ℚ
  y1 : ℚ
  text : String
deriving Repr, DecidableEq

/-- A page of the document structure as read by
`createHighlightsFromSourceReferences`: its offset range and (optionally
present) extracted text blocks. -/
structure PageData where
  page_number : ℕ
  start_index : ℤ
  end_index : ℤ
  text_blocks : Option (List TextBlock)
deriving Repr, DecidableEq

/-- A `SourceReference` as the correlator reads it (`start_index` and
`end_index` may be undefined). -/
structure Source where
  id : String
  text : String
  start_index : Option ℤ
  end_index : Option ℤ
deriving Repr, DecidableEq

/-- A highlight rectangle produced by the correlator. -/
structure HighlightArea where
  pageIndex : ℤ
  left : ℚ
  top : ℚ
  width : ℚ
  height : ℚ
  color : String
  opacity : ℚ
deriving Repr, DecidableEq

/-- JavaScript `haystack.includes(needle)` on strings modelled as character
lists. -/
def listIncludes (hay needle : List Char) : Bool :=
  if needle.isPrefixOf hay then true
  else
    match hay with
    | [] => false
    | _ :: t => listIncludes t needle

/-- JavaScript `block.text.includes(source.text.substring(0, 50))`. -/
def blockMatches (source : Source) (b : TextBlock) : Bool :=
  listIncludes b.text.toList (source.text.take 50).toList

/-- The rectangle pushed for a matching block: position and size from the
block's bounding box (`width = x1 - x0`, `height = y1 - y0`), the colour of
the source's id (computed over `sources.length`, here `n`), and opacity
`0.4`. -/
def mkArea (n : ℕ) (pg : PageData) (source : Source) (b : TextBlock) :
    HighlightArea :=
  ⟨(pg.page_number : ℤ) - 1, b.x0, b.y0, b.x1 - b.x0, b.y1 - b.y0,
   Colors.getHighlightColorBySourceId source.id n, 2 / 5⟩

/-- The body of the `sources.forEach` loop of
`createHighlightsFromSourceReferences`: for a source with both indices
defined, find the first page whose offset range contains `start_index`; if it
carries extracted text blocks, push one rectangle per block whose text
contains the first 50 characters of the source's text. -/
def pushSource (n : ℕ) (pages : List PageData) (acc : List HighlightArea)
    (source : Source) : List HighlightArea :=
  match source.start_index, source.end_index with
  | some s, some _ =>
    match pages.find? (fun p => decide (p.start_index ≤ s) && decide (s ≤ p.end_index)) with
    | some pg =>
      match pg.text_blocks with
      | some blocks =>
        acc ++ (blocks.filter (blockMatches source)).map (mkArea n pg source)
      | none => acc
    | none => acc
  | _, _ => acc

/-- `createHighlightsFromSourceReferences` from `PDFViewer.tsx`: the
`forEach` accumulation of `pushSource` over the sources, starting from the
empty array. -/
def createHighlightsFromSourceReferences (sources : List Source)
    (pages : List PageData) : List HighlightArea :=
  sources.foldl (pushSource sources.length pages) []

/-- The per-source rectangles, written as a standalone function for the
characterization theorem. -/
def rectsForSource (n : ℕ) (pages : List PageData) (source : Source) :
    List HighlightArea :=
  match source.start_index, source.end_index with
  | some s, some _ =>
    match pages.find? (fun p => decide (p.start_index ≤ s) && decide (s ≤ p.end_index)) with
    | some pg =>
      match pg.text_blocks with
      | some blocks => (blocks.filter (blockMatches source)).map (mkArea n pg source)
      | none => []
    | none => []
  | _, _ => []

end PDF

namespace PageLookup

/-- A page entry of the document structure's page-offset table. -/
structure Page where
  page_number : ℕ
  start_index : ℤ
  end_index : ℤ
deriving Repr, DecidableEq

/-- `getPageForPosition` from `useDocumentViewer.ts`: scan the pages in order
and return the `page_number` of the first whose closed offset range contains
`position`; `null` when none does. -/
def getPageForPosition (pages : List Page) (position : ℤ) : Option ℕ :=
  (pages.find? (fun p => decide (p.start_index ≤ position) && decide (position ≤ p.end_index))).map
    (fun p => p.page_number)

/-- The pages' offset ranges are pairwise disjoint: no position lies in two
distinct entries of the table. -/
def PagesDisjoint (pages : List Page) : Prop :=
  pages.Pairwise (fun p q => ∀ x : ℤ,
    ¬(p.start_index ≤ x ∧ x ≤ p.end_index ∧ q.start_index ≤ x ∧ x ≤ q.end_index))

end PageLookup

namespace HText

/-- The `Highlight` interface of `HighlightableText.tsx` (the fields the run
construction reads).  Offsets are modelled as naturals: the claims about this
component constrain them to lie within the text's bounds. -/
structure Highlight where
  id : String
  startIndex : ℕ
  endIndex : ℕ
  color : String
deriving Repr, DecidableEq

/-- JavaScript `text.slice(a, b)` for in-bounds non-negative indices. -/
def sliceList (t : List Char) (a b : ℕ) : List Char :=
  (t.take b).drop a

/-- The run-building loop of `HighlightableText`: for each highlight (already
sorted by start index), push the unhighlighted text between `lastIndex` and
the highlight's start when non-empty, push the highlighted slice
unconditionally, and advance `lastIndex` to the highlight's end; finally push
the remaining text when `lastIndex < text.length`. -/
def buildRuns (t : List Char) : List Highlight → ℕ → List (List Char)
  | [], lastIndex => if lastIndex < t.length then [t.drop lastIndex] else []
  | h :: rest, lastIndex =>
    (if lastIndex < h.startIndex then [sliceList t lastIndex h.startIndex] else []) ++
      (sliceList t h.startIndex h.endIndex :: buildRuns t rest h.endIndex)

/-- `[...highlights].sort((a, b) => a.startIndex - b.startIndex)`: a stable
sort by start index. -/
def sortHighlights (hs : List Highlight) : List Highlight :=
  List.insertionSort (fun a b => a.startIndex ≤ b.startIndex) hs

/-- The concatenation of every run `HighlightableText` renders: the text
itself when there are no highlights, otherwise the joined runs built over the
sorted highlights starting from `lastIndex = 0`. -/
def renderedConcat (t : List Char) (hs : List Highlight) : List Char :=
  if hs.isEmpty then t else (buildRuns t (sortHighlights hs) 0).join

/-- Two highlights do not overlap: one's span `[startIndex, endIndex)` ends
before the other's begins. -/
def NoOverlap (a b : Highlight) : Prop :=
  a.endIndex ≤ b.startIndex ∨ b.endIndex ≤ a.startIndex

end HText

namespace HLManager

/-- A `SourceReference` as the highlight manager reads it (`start_index` and
`end_index` may be undefined). -/
structure SourceReference where
  id : String
  text : String
  start_index : Option ℤ
  end_index : Option ℤ
  page_number : Option ℕ
  section_title : Option String
deriving Repr, DecidableEq

/-- The `Highlight` record built by `addHighlight`. -/
structure Highlight where
  id : String
  startIndex : ℤ
  endIndex : ℤ
  color : String
  text : String
  pageNumber : Option ℕ
  sectionTitle : Option String
deriving Repr, DecidableEq

/-- The state of `useHighlightManager`: the stored highlights and the list of
highlighted source ids. -/
structure HighlightState where
  highlights : List Highlight
  highlightedSourceIds : List String
deriving Repr, DecidableEq

/-- `addHighlight(source)`: reject sources with missing position data, or
with `start_index < 0` or `end_index <= start_index`; otherwise append a new
highlight unless one with the same id exists, and append the id unless
already present. -/
def addHighlight (src : SourceReference) (st : HighlightState) : HighlightState :=
  match src.start_index, src.end_index with
  | some s, some e =>
    if s < 0 ∨ e ≤ s then st
    else
      let newH : Highlight :=
        ⟨src.id, s, e, Colors.getHighlightColorBySourceId src.id 10, src.text,
         src.page_number, src.section_title⟩
      { highlights :=
          if st.highlights.any (fun h => decide (h.id = src.id)) then st.highlights
          else st.highlights ++ [newH]
        highlightedSourceIds :=
          if src.id ∈ st.highlightedSourceIds then st.highlightedSourceIds
          else st.highlightedSourceIds ++ [src.id] }
  | _, _ => st

/-- `removeHighlight(highlightId)`: filter both lists by id. -/
def removeHighlight (hid : String) (st : HighlightState) : HighlightState :=
  { highlights := st.highlights.filter (fun h => decide (h.id ≠ hid))
    highlightedSourceIds :=
      st.highlightedSourceIds.filter (fun i => decide (i ≠ hid)) }

/-- `clearHighlights()`: reset both lists. -/
def clearHighlights (_st : HighlightState) : HighlightState :=
  { highlights := [], highlightedSourceIds := [] }

/-- `toggleHighlight(source)`: remove when the id is highlighted, add
otherwise. -/
def toggleHighlight (src : SourceReference) (st : HighlightState) : HighlightState :=
  if src.id ∈ st.highlightedSourceIds then removeHighlight src.id st
  else addHighlight src st

/-- The state invariant of the highlight manager: every stored highlight has
`0 <= startIndex < endIndex`, stored ids are pairwise distinct, and
`highlightedSourceIds` is exactly the list of stored highlight ids. -/
def Inv (st : HighlightState) : Prop :=
  (∀ h ∈ st.highlights, 0 ≤ h.startIndex ∧ h.startIndex < h.endIndex) ∧
  (st.highlights.map Highlight.id).Nodup ∧
  st.highlightedSourceIds = st.highlights.map Highlight.id

end HLManager

/-- Filtering after mapping after filtering is a single `filterMap`. -/
theorem filter_map_filter_eq_filterMap {α : Type} (p q : α → Bool) (f : α → α)
    (l : List α) :
    ((l.filter q).map f).filter p =
      l.filterMap (fun x =>
        if q x then (if p (f x) then some (f x) else none) else none) := by
  induction l with
  | nil => rfl
  | cons x t ih =>
    cases hq : q x <;> cases hp : p (f x) <;>
      simp [List.filter_cons, List.filterMap_cons, hq, hp, ih]

/-- `filterMap` respects pointwise equality on the list's elements. -/
theorem filterMap_congr_aux {α β : Type} (f g : α → Option β) (l : List α)
    (h : ∀ x ∈ l, f x = g x) : l.filterMap f = l.filterMap g := by
  induction l with
  | nil => rfl
  | cons x t ih =>
    simp only [List.filterMap_cons, h x (List.mem_cons_self x t)]
    rw [ih (fun y hy => h y (List.mem_cons_of_mem x hy))]

/-- C1: the claim that `getHighlightColorBySourceId` is a pure function of the
source id alone fails: the palette index is taken modulo `totalSources`, the
count of currently displayed sources, so the very same id "a" is coloured
`#fbbf24` when one source is displayed but `#60a5fa` when two are — toggling
an unrelated source changes the colour of one already displayed. -/
theorem getHighlightColorBySourceId_not_pure_in_id :
    Colors.getHighlightColorBySourceId "a" 1 = "#fbbf24" ∧
    Colors.getHighlightColorBySourceId "a" 2 = "#60a5fa" ∧
    Colors.getHighlightColorBySourceId "a" 1 ≠ Colors.getHighlightColorBySourceId "a" 2 := by
  refine ⟨rfl, rfl, ?_⟩
  decide

/-- C2 counterexample: for the visible window `[5000, 6000)` the code drops a
source spanning `[4900, 5100)` entirely (its `start_index` 4900 is outside the
window, and the visibility filter tests only `start_index`), whereas the claim
— matched by the spec-modelled intersection clipping — says it is kept and
clipped to `[0, 100)` of the window. -/
theorem adjustedPipeline_drops_straddling_source :
    DocViewer.adjustedPipeline 5000 1000
      [⟨"s1", 4900, 5100, "#fbbf24", "t"⟩] = [] ∧
    DocViewer.specClipPipeline 5000 1000
      [⟨"s1", 4900, 5100, "#fbbf24", "t"⟩] =
      [⟨"s1", 0, 100, "#fbbf24", "t"⟩] := by
  constructor <;> rfl

/-- C2 amended: the plain-text keep/clip/drop stage keeps a highlight iff its
`start_index` lies inside the window `[w_start, w_start + window_length)`
(mere intersection of the span with the window is not enough), clips kept
highlights to `adjusted_start = max(0, start_index - w_start)` and
`adjusted_end = min(window_length, end_index - w_start)`, and drops those whose
clipped span is empty or invalid. -/
theorem adjustedPipeline_characterization (w : ℤ) (len : ℕ)
    (hs : List DocViewer.Highlight) :
    DocViewer.adjustedPipeline w len hs =
      hs.filterMap (fun h =>
        if w ≤ h.startIndex ∧ h.startIndex < w + len then
          let a := max 0 (h.startIndex - w)
          let b := min (len : ℤ) (h.endIndex - w)
          if 0 ≤ a ∧ a < b ∧ b ≤ (len : ℤ) then
            some { h with startIndex := a, endIndex := b }
          else none
        else none) := by
  rw [DocViewer.adjustedPipeline, DocViewer.visibleHighlights,
    filter_map_filter_eq_filterMap]
  apply filterMap_congr_aux
  intro x _
  simp only [DocViewer.adjustHighlight, DocViewer.isValidAdjusted,
    decide_eq_true_eq]

/-- C3: when `apiService.askQuestion` rejects, `askQuestion` changes only the
`error` and `isAsking` fields of the session state: the resulting state is the
original with `error := errMsg` and `isAsking := false`, so in particular the
session object and its message history are exactly as before the failed
call. -/
theorem askQuestion_failure_preserves_session (st : QASessionHook.QASessionState)
    (errMsg : String) (hs : st.session.isSome) :
    QASessionHook.askQuestionOnApiFailure st errMsg =
      { st with error := some errMsg, isAsking := false } ∧
    (QASessionHook.askQuestionOnApiFailure st errMsg).session = st.session ∧
    (QASessionHook.askQuestionOnApiFailure st errMsg).session.map
        QASessionHook.QASession.messages =
      st.session.map QASessionHook.QASession.messages := by
  refine ⟨?_, ?_, ?_⟩ <;>
    simp [QASessionHook.askQuestionOnApiFailure, hs,
      QASessionHook.askQuestionCatch, QASessionHook.askQuestionStart]

/-- Witness for C3: a concrete state with one message in its session; the
failed ask leaves the session and its messages untouched. -/
theorem askQuestion_failure_preserves_session_witness :
    QASessionHook.askQuestionOnApiFailure
        ⟨some ⟨"s", "f", "doc.txt", "now", [⟨"m1", "user", "hi", "t0"⟩], 1⟩,
         false, none, false, false⟩ "network error" =
      ⟨some ⟨"s", "f", "doc.txt", "now", [⟨"m1", "user", "hi", "t0"⟩], 1⟩,
       false, some "network error", false, false⟩ :=
  (askQuestion_failure_preserves_session
    ⟨some ⟨"s", "f", "doc.txt", "now", [⟨"m1", "user", "hi", "t0"⟩], 1⟩,
     false, none, false, false⟩ "network error" rfl).1

/-- Auxiliary characterization of the retry loop from any starting attempt:
the result is the first success among the `remaining + 1` attempts
`attempt, attempt+1, …`, the operation is invoked at most `remaining + 1`
times, and the delay recorded after the `k`-th consecutive failure is
`calculateDelay (attempt + k)`. -/
theorem retryGo_spec {α : Type} (op : ℕ → Option α) (cfg : Retry.RetryConfig) :
    ∀ (remaining attempt : ℕ),
      (Retry.retryGo op cfg attempt remaining).calls ≤ remaining + 1 ∧
      (Retry.retryGo op cfg attempt remaining).result =
        (List.range' attempt (remaining + 1)).findSome? op ∧
      ∀ k : ℕ, k < remaining → (∀ i : ℕ, i ≤ k → op (attempt + i) = none) →
        (Retry.retryGo op cfg attempt remaining).delays.get? k =
          some (Retry.calculateDelay cfg (attempt + k)) := by
  intro remaining
  induction remaining with
  | zero =>
    intro attempt
    cases hop : op attempt <;>
      simp [Retry.retryGo, hop, List.range', List.findSome?]
  | succ n ih =>
    intro attempt
    cases hop : op attempt with
    | some r =>
      refine ⟨by simp [Retry.retryGo, hop], ?_, ?_⟩
      · simp [Retry.retryGo, hop, List.range', List.findSome?]
      · intro k hk hfail
        have := hfail 0 (Nat.zero_le k)
        simp only [Nat.add_zero] at this
        rw [this] at hop
        exact absurd hop (by simp)
    | none =>
      obtain ⟨ih1, ih2, ih3⟩ := ih (attempt + 1)
      refine ⟨?_, ?_, ?_⟩
      · simpa [Retry.retryGo, hop] using Nat.succ_le_succ ih1
      · simp [Retry.retryGo, hop, List.range', List.findSome?, ih2]
      · intro k hk hfail
        cases k with
        | zero => simp [Retry.retryGo, hop]
        | succ m =>
          have hm : m < n := Nat.lt_of_succ_lt_succ hk
          have hfail' : ∀ i : ℕ, i ≤ m → op (attempt + 1 + i) = none := by
            intro i hi
            have := hfail (i + 1) (Nat.succ_le_succ hi)
            simpa [Nat.add_assoc, Nat.add_comm 1 i] using this
          have := ih3 m hm hfail'
          simpa [Retry.retryGo, hop, Nat.add_assoc, Nat.add_comm 1 m] using this

/-- C4: after every failed attempt `k` (0-based) that still has retries
remaining, `retry` waits exactly
`min(baseDelay * backoffMultiplier ^ k, maxDelay)` before invoking the
operation again. -/
theorem retry_delay_is_capped_backoff {α : Type} (op : ℕ → Option α)
    (cfg : Retry.RetryConfig) (k : ℕ) (hk : k < cfg.maxAttempts)
    (hfail : ∀ i : ℕ, i ≤ k → op i = none) :
    (Retry.retryRun op cfg).delays.get? k =
      some (min (cfg.baseDelay * cfg.backoffMultiplier ^ k) cfg.maxDelay) := by
  have := (retryGo_spec op cfg cfg.maxAttempts 0).2.2 k hk
    (fun i hi => by simpa using hfail i hi)
  simpa [Retry.retryRun, Retry.calculateDelay] using this

/-- Witness for C4: with the default configuration and an operation that
always fails, the delay recorded after failed attempt 1 is
`min(1000 * 2 ^ 1, 10000) = 2000`. -/
theorem retry_delay_is_capped_backoff_witness :
    (Retry.retryRun (fun _ => (none : Option ℕ)) Retry.defaultConfig).delays.get? 1 =
      some 2000 := by
  have h := retry_delay_is_capped_backoff (fun _ => (none : Option ℕ))
    Retry.defaultConfig 1 (by decide) (fun i _ => rfl)
  rw [h]
  norm_num [Retry.defaultConfig]

/-- C5: `retry` never retries indefinitely: it invokes the operation at most
`maxAttempts + 1` times, and returns the first successful result among
attempts `0, …, maxAttempts` — or `null` (modelled as `none`) when every
attempt failed. -/
theorem retry_terminates_with_first_success {α : Type} (op : ℕ → Option α)
    (cfg : Retry.RetryConfig) :
    (Retry.retryRun op cfg).calls ≤ cfg.maxAttempts + 1 ∧
    (Retry.retryRun op cfg).result =
      (List.range (cfg.maxAttempts + 1)).findSome? op := by
  obtain ⟨h1, h2, _⟩ := retryGo_spec op cfg cfg.maxAttempts 0
  exact ⟨h1, by simpa [List.range_eq_range'] using h2⟩

/-- C6: the claim that `navigateToHighlight` (and `getPagesWithHighlights`)
targets the page whose line range contains the highlight's start offset fails:
`lines.slice(0, highlight.startIndex)` slices the array of lines by a
character offset, so the computed "line" is the offset clamped to the line
count.  In a 60-line document of one character per line, a highlight at
character offset 30 lies on line 16 — page 1 at 25 lines per page — but the
code navigates to page 2 (and marks page 2, not page 1, as carrying the
highlight). -/
theorem navigateToHighlight_wrong_page :
    Pagination.targetPageOf Pagination.doc60 30 25 = 2 ∧
    Pagination.pagesWithHighlights Pagination.doc60 25 [30] = [2] ∧
    Pagination.specPageOfOffset Pagination.doc60 30 25 = 1 := by
  refine ⟨by decide, by decide, by decide⟩

/-- `pushSource` appends exactly the rectangles of `rectsForSource`. -/
theorem pushSource_eq_append (n : ℕ) (pages : List PDF.PageData)
    (acc : List PDF.HighlightArea) (source : PDF.Source) :
    PDF.pushSource n pages acc source = acc ++ PDF.rectsForSource n pages source := by
  unfold PDF.pushSource PDF.rectsForSource
  cases hs : source.start_index with
  | none => simp [hs]
  | some s =>
    cases he : source.end_index with
    | none => simp [hs, he]
    | some e =>
      cases hf : pages.find?
          (fun p => decide (p.start_index ≤ s) && decide (s ≤ p.end_index)) with
      | none => simp [hs, he, hf]
      | some pg =>
        cases hb : pg.text_blocks with
        | none => simp [hs, he, hf, hb]
        | some blocks => simp [hs, he, hf, hb]

/-- Folding an accumulate-append body equals joining the per-element lists. -/
theorem foldl_append_eq_join {α β : Type} (f : α → List β) :
    ∀ (l : List α) (acc : List β),
      l.foldl (fun a x => a ++ f x) acc = acc ++ (l.map f).join
  | [], acc => by simp
  | x :: t, acc => by
    simp [List.foldl_cons, foldl_append_eq_join f t, List.append_assoc]

/-- C7: the paged correlator's output is the concatenation, over the sources,
of the per-source rectangles; and for every source with both indices defined
that locates to a page carrying extracted text blocks, the per-source
rectangles are exactly one per block whose text contains the first 50
characters of the source's text, each taking position and size from the
block's bounding box (`width = x1 - x0`, `height = y1 - y0`), the source's
colour and opacity `0.4`. -/
theorem createHighlights_rect_per_matching_block (sources : List PDF.Source)
    (pages : List PDF.PageData) :
    PDF.createHighlightsFromSourceReferences sources pages =
      (sources.map (PDF.rectsForSource sources.length pages)).join ∧
    ∀ (source : PDF.Source) (s e : ℤ) (pg : PDF.PageData)
      (blocks : List PDF.TextBlock),
      source.start_index = some s → source.end_index = some e →
      pages.find? (fun p => decide (p.start_index ≤ s) && decide (s ≤ p.end_index)) = some pg →
      pg.text_blocks = some blocks →
      PDF.rectsForSource sources.length pages source =
        (blocks.filter (PDF.blockMatches source)).map
          (PDF.mkArea sources.length pg source) := by
  constructor
  · rw [PDF.createHighlightsFromSourceReferences]
    have hfun : PDF.pushSource sources.length pages =
        fun a x => a ++ PDF.rectsForSource sources.length pages x :=
      funext fun a => funext fun x => pushSource_eq_append sources.length pages a x
    rw [hfun, foldl_append_eq_join]
    simp
  · intro source s e pg blocks hs he hf hb
    unfold PDF.rectsForSource
    simp only [hs, he, hf, hb]

set_option maxRecDepth 4000 in
/-- Witness for C7: a single source located on a one-page structure with two
text blocks, of which exactly the first contains the source text's prefix;
one rectangle is produced, from that block's bounding box. -/
theorem createHighlights_rect_per_matching_block_witness :
    PDF.rectsForSource 1
        [⟨1, 0, 99, some [⟨0, 0, 5, 7, "a hello block"⟩, ⟨1, 1, 2, 2, "other"⟩]⟩]
        ⟨"src1", "hello", some 10, some 20⟩ =
      [⟨0, 0, 0, 5, 7, Colors.getHighlightColorBySourceId "src1" 1, 2 / 5⟩] := by
  have h := (createHighlights_rect_per_matching_block
      [⟨"src1", "hello", some 10, some 20⟩]
      [⟨1, 0, 99, some [⟨0, 0, 5, 7, "a hello block"⟩, ⟨1, 1, 2, 2, "other"⟩]⟩]).2
      ⟨"src1", "hello", some 10, some 20⟩ 10 20
      ⟨1, 0, 99, some [⟨0, 0, 5, 7, "a hello block"⟩, ⟨1, 1, 2, 2, "other"⟩]⟩
      [⟨0, 0, 5, 7, "a hello block"⟩, ⟨1, 1, 2, 2, "other"⟩]
      rfl rfl (by decide) rfl
  refine h.trans ?_
  have b1 : PDF.blockMatches ⟨"src1", "hello", some 10, some 20⟩
      ⟨0, 0, 5, 7, "a hello block"⟩ = true := by decide
  have b2 : PDF.blockMatches ⟨"src1", "hello", some 10, some 20⟩
      ⟨1, 1, 2, 2, "other"⟩ = false := by decide
  simp [b1, b2, PDF.mkArea]

/-- C8: on a page-offset table with pairwise disjoint closed ranges,
`getPageForPosition` returns the page number of the unique page whose range
contains the position, and `null` when no page's range does. -/
theorem getPageForPosition_unique (pages : List PageLookup.Page) (pos : ℤ)
    (hdisj : PageLookup.PagesDisjoint pages) :
    (∀ p ∈ pages, p.start_index ≤ pos → pos ≤ p.end_index →
      PageLookup.getPageForPosition pages pos = some p.page_number) ∧
    ((∀ p ∈ pages, ¬(p.start_index ≤ pos ∧ pos ≤ p.end_index)) →
      PageLookup.getPageForPosition pages pos = none) := by
  induction pages with
  | nil => exact ⟨fun p hp => absurd hp (List.not_mem_nil p), fun _ => rfl⟩
  | cons q t ih =>
    rw [PageLookup.PagesDisjoint, List.pairwise_cons] at hdisj
    obtain ⟨hq, hdisj'⟩ := hdisj
    obtain ⟨ih1, ih2⟩ := ih hdisj'
    constructor
    · intro p hp h1 h2
      rcases List.mem_cons.mp hp with hpq | hpt
      · subst hpq
        have hpt : (decide (p.start_index ≤ pos) && decide (pos ≤ p.end_index)) = true := by
          simp [h1, h2]
        simp [PageLookup.getPageForPosition, List.find?, hpt]
      · by_cases hqpos : q.start_index ≤ pos ∧ pos ≤ q.end_index
        · exact absurd ⟨hqpos.1, hqpos.2, h1, h2⟩ (hq p hpt pos)
        · have hqf : (decide (q.start_index ≤ pos) && decide (pos ≤ q.end_index)) = false := by
            rcases not_and_or.mp hqpos with h | h <;> simp [h]
          have := ih1 p hpt h1 h2
          simpa [PageLookup.getPageForPosition, List.find?, hqf] using this
    · intro hnone
      have hqf : (decide (q.start_index ≤ pos) && decide (pos ≤ q.end_index)) = false := by
        rcases not_and_or.mp (hnone q (List.mem_cons_self q t)) with h | h <;> simp [h]
      have := ih2 (fun p hp => hnone p (List.mem_cons_of_mem q hp))
      simpa [PageLookup.getPageForPosition, List.find?, hqf] using this

/-- Witness for C8: a two-page table `[0,99]`, `[100,199]`; position 150 maps
to page 2. -/
theorem getPageForPosition_unique_witness :
    PageLookup.getPageForPosition [⟨1, 0, 99⟩, ⟨2, 100, 199⟩] 150 = some 2 := by
  have hdisj : PageLookup.PagesDisjoint [⟨1, 0, 99⟩, ⟨2, 100, 199⟩] := by
    unfold PageLookup.PagesDisjoint
    refine List.pairwise_cons.mpr ⟨?_, List.pairwise_cons.mpr ⟨?_, List.Pairwise.nil⟩⟩
    · intro q hq x
      have : q = (⟨2, 100, 199⟩ : PageLookup.Page) := by simpa using hq
      subst this
      intro hx
      simp at hx
      omega
    · intro q hq
      exact absurd hq (List.not_mem_nil q)
  exact (getPageForPosition_unique [⟨1, 0, 99⟩, ⟨2, 100, 199⟩] 150 hdisj).1
    ⟨2, 100, 199⟩ (by simp) (by decide) (by decide)

/-- A slice `[a, b)` of a list followed by the drop at `b` is the drop at `a`. -/
theorem slice_append_drop : ∀ (t : List Char) (a b : ℕ), a ≤ b →
    HText.sliceList t a b ++ t.drop b = t.drop a
  | t, 0, b, _ => by simp [HText.sliceList, List.take_append_drop]
  | [], _ + 1, _, _ => by simp [HText.sliceList]
  | c :: t, a + 1, b, hab => by
    cases b with
    | zero => omega
    | succ b' =>
      simp only [HText.sliceList, List.take_succ_cons, List.drop_succ_cons]
      exact slice_append_drop t a b' (Nat.le_of_succ_le_succ hab)

/-- The runs built over a sorted, non-overlapping, in-bounds highlight list
starting at `lastIndex` concatenate to the text from `lastIndex` on. -/
theorem buildRuns_join (t : List Char) :
    ∀ (l : List HText.Highlight) (lastIndex : ℕ),
      (∀ h ∈ l, h.startIndex < h.endIndex ∧ h.endIndex ≤ t.length) →
      List.Sorted (fun a b => a.startIndex ≤ b.startIndex) l →
      l.Pairwise HText.NoOverlap →
      (∀ h ∈ l, lastIndex ≤ h.startIndex) →
      (HText.buildRuns t l lastIndex).join = t.drop lastIndex := by
  intro l
  induction l with
  | nil =>
    intro lastIndex _ _ _ _
    by_cases hlt : lastIndex < t.length
    · simp [HText.buildRuns, hlt]
    · have hdrop : t.drop lastIndex = [] := List.drop_eq_nil_of_le (by omega)
      simp [HText.buildRuns, hlt, hdrop]
  | cons h rest ih =>
    intro lastIndex hb hsort hno hlast
    have hse : h.startIndex < h.endIndex := (hb h (by simp)).1
    have hlh : lastIndex ≤ h.startIndex := hlast h (by simp)
    have hrest_ge : ∀ h' ∈ rest, h.endIndex ≤ h'.startIndex := by
      intro h' hh'
      have hss : h.startIndex ≤ h'.startIndex := (List.sorted_cons.mp hsort).1 h' hh'
      rcases (List.pairwise_cons.mp hno).1 h' hh' with hov | hov
      · exact hov
      · have : h'.startIndex < h'.endIndex := (hb h' (by simp [hh'])).1
        omega
    have ihj : (HText.buildRuns t rest h.endIndex).join = t.drop h.endIndex :=
      ih h.endIndex (fun h' hh' => hb h' (by simp [hh']))
        (List.sorted_cons.mp hsort).2 (List.pairwise_cons.mp hno).2 hrest_ge
    have key : (HText.buildRuns t (h :: rest) lastIndex).join
        = (if lastIndex < h.startIndex
            then HText.sliceList t lastIndex h.startIndex else []) ++
          (HText.sliceList t h.startIndex h.endIndex ++
            (HText.buildRuns t rest h.endIndex).join) := by
      by_cases hpre : lastIndex < h.startIndex <;>
        simp [HText.buildRuns, hpre, List.join_append]
    rw [key, ihj,
      slice_append_drop t h.startIndex h.endIndex (Nat.le_of_lt hse)]
    by_cases hpre : lastIndex < h.startIndex
    · rw [if_pos hpre,
        slice_append_drop t lastIndex h.startIndex (Nat.le_of_lt hpre)]
    · have heq : lastIndex = h.startIndex := by omega
      rw [if_neg hpre, heq]
      simp

/-- C9: for every text and every list of highlights whose spans are nonempty,
lie within the text's bounds and are pairwise non-overlapping, the
concatenation of all runs `HighlightableText` renders equals the original
text — no characters dropped or duplicated. -/
theorem highlightableText_preserves_text (t : List Char)
    (hs : List HText.Highlight)
    (hb : ∀ h ∈ hs, h.startIndex < h.endIndex ∧ h.endIndex ≤ t.length)
    (hno : hs.Pairwise HText.NoOverlap) :
    HText.renderedConcat t hs = t := by
  unfold HText.renderedConcat
  by_cases hemp : hs.isEmpty
  · rw [if_pos hemp]
  · rw [if_neg hemp]
    have hperm : List.Perm (HText.sortHighlights hs) hs :=
      List.perm_insertionSort _ hs
    have hsymm : Symmetric HText.NoOverlap := fun _ _ hab => Or.symm hab
    haveI : IsTotal HText.Highlight (fun a b => a.startIndex ≤ b.startIndex) :=
      ⟨fun a b => Nat.le_total _ _⟩
    haveI : IsTrans HText.Highlight (fun a b => a.startIndex ≤ b.startIndex) :=
      ⟨fun _ _ _ => Nat.le_trans⟩
    have hrun := buildRuns_join t (HText.sortHighlights hs) 0
      (fun h hh => hb h (hperm.mem_iff.mp hh))
      (List.sorted_insertionSort _ hs)
      ((@List.Perm.pairwise_iff _ HText.NoOverlap
        (fun {a b} hab => hsymm hab) _ _ hperm).mpr hno)
      (fun h _ => Nat.zero_le _)
    rw [hrun, List.drop_zero]

instance : DecidableRel HText.NoOverlap := fun a b =>
  decidable_of_iff (a.endIndex ≤ b.startIndex ∨ b.endIndex ≤ a.startIndex) Iff.rfl

/-- Witness for C9: two out-of-order, non-overlapping highlights over
"abcdef"; the rendered runs concatenate back to "abcdef". -/
theorem highlightableText_preserves_text_witness :
    HText.renderedConcat "abcdef".toList
      [⟨"h2", 3, 5, "#60a5fa"⟩, ⟨"h1", 0, 2, "#fbbf24"⟩] = "abcdef".toList :=
  highlightableText_preserves_text "abcdef".toList
    [⟨"h2", 3, 5, "#60a5fa"⟩, ⟨"h1", 0, 2, "#fbbf24"⟩]
    (by decide) (by decide)

/-- Mapping after filtering through the mapped function commutes. -/
theorem map_filter_comp {α β : Type} (f : α → β) (p : β → Bool) (l : List α) :
    (l.filter (fun x => p (f x))).map f = (l.map f).filter p := by
  induction l with
  | nil => rfl
  | cons x t ih => cases hp : p (f x) <;> simp [List.filter_cons, hp, ih]

/-- `addHighlight` preserves the manager's invariant. -/
theorem addHighlight_inv (st : HLManager.HighlightState)
    (hinv : HLManager.Inv st) (src : HLManager.SourceReference) :
    HLManager.Inv (HLManager.addHighlight src st) := by
  obtain ⟨hbounds, hnodup, hids⟩ := hinv
  cases hs : src.start_index with
  | none =>
    simpa [HLManager.addHighlight, hs] using ⟨hbounds, hnodup, hids⟩
  | some s =>
    cases he : src.end_index with
    | none =>
      simpa [HLManager.addHighlight, hs, he] using ⟨hbounds, hnodup, hids⟩
    | some e =>
      by_cases hvalid : s < 0 ∨ e ≤ s
      · simpa [HLManager.addHighlight, hs, he, hvalid] using ⟨hbounds, hnodup, hids⟩
      · by_cases hmem : src.id ∈ st.highlights.map HLManager.Highlight.id
        · have hany : st.highlights.any (fun h => decide (h.id = src.id)) = true := by
            rw [List.any_eq_true]
            obtain ⟨h, hh, hid⟩ := List.mem_map.mp hmem
            exact ⟨h, hh, by simp [hid]⟩
          have hmem' : src.id ∈ st.highlightedSourceIds := by rw [hids]; exact hmem
          simpa [HLManager.addHighlight, hs, he, hvalid, hany, hmem'] using
            ⟨hbounds, hnodup, hids⟩
        · have hany : st.highlights.any (fun h => decide (h.id = src.id)) = false := by
            rw [Bool.eq_false_iff]
            intro hcon
            rw [List.any_eq_true] at hcon
            obtain ⟨h, hh, hpx⟩ := hcon
            exact hmem (List.mem_map.mpr ⟨h, hh, of_decide_eq_true hpx⟩)
          have hmem' : src.id ∉ st.highlightedSourceIds := by rw [hids]; exact hmem
          have hstep : HLManager.addHighlight src st =
              { highlights := st.highlights ++
                  [⟨src.id, s, e, Colors.getHighlightColorBySourceId src.id 10,
                    src.text, src.page_number, src.section_title⟩],
                highlightedSourceIds := st.highlightedSourceIds ++ [src.id] } := by
            simp [HLManager.addHighlight, hs, he, hvalid, hany, hmem']
          rw [hstep]
          obtain ⟨h1, h2⟩ := not_or.mp hvalid
          refine ⟨?_, ?_, ?_⟩
          · intro h hh
            rcases List.mem_append.mp hh with hh | hh
            · exact hbounds h hh
            · have heq : h = ⟨src.id, s, e,
                  Colors.getHighlightColorBySourceId src.id 10, src.text,
                  src.page_number, src.section_title⟩ := by simpa using hh
              subst heq
              refine ⟨?_, ?_⟩ <;> simp <;> omega
          · show ((st.highlights ++ _).map HLManager.Highlight.id).Nodup
            rw [List.map_append, List.nodup_append]
            refine ⟨hnodup, by simp, ?_⟩
            intro a ha hb
            simp at hb
            subst hb
            exact hmem ha
          · show st.highlightedSourceIds ++ [src.id] =
              (st.highlights ++ _).map HLManager.Highlight.id
            rw [List.map_append, hids]
            simp

/-- `removeHighlight` preserves the manager's invariant. -/
theorem removeHighlight_inv (st : HLManager.HighlightState)
    (hinv : HLManager.Inv st) (hid : String) :
    HLManager.Inv (HLManager.removeHighlight hid st) := by
  obtain ⟨hbounds, hnodup, hids⟩ := hinv
  refine ⟨?_, ?_, ?_⟩
  · intro h hh
    exact hbounds h (List.mem_of_mem_filter hh)
  · show ((st.highlights.filter _).map HLManager.Highlight.id).Nodup
    rw [map_filter_comp HLManager.Highlight.id (fun i => decide (i ≠ hid))]
    exact hnodup.filter _
  · show st.highlightedSourceIds.filter _ =
      (st.highlights.filter _).map HLManager.Highlight.id
    rw [map_filter_comp HLManager.Highlight.id (fun i => decide (i ≠ hid)), hids]

/-- C10: the highlight manager's state invariant — every stored highlight has
`0 <= startIndex < endIndex`, stored ids are pairwise distinct, and
`highlightedSourceIds` is exactly the list of stored highlight ids — is
preserved by `addHighlight`, `removeHighlight`, `clearHighlights` and
`toggleHighlight`; and adding a source whose id is already highlighted, or
whose offsets are missing or invalid, leaves the state unchanged. -/
theorem useHighlightManager_invariant (st : HLManager.HighlightState)
    (hinv : HLManager.Inv st) :
    (∀ src, HLManager.Inv (HLManager.addHighlight src st)) ∧
    (∀ hid, HLManager.Inv (HLManager.removeHighlight hid st)) ∧
    HLManager.Inv (HLManager.clearHighlights st) ∧
    (∀ src, HLManager.Inv (HLManager.toggleHighlight src st)) ∧
    (∀ src : HLManager.SourceReference, src.id ∈ st.highlightedSourceIds →
      HLManager.addHighlight src st = st) ∧
    (∀ (src : HLManager.SourceReference) (s e : ℤ),
      src.start_index = some s → src.end_index = some e → s < 0 ∨ e ≤ s →
      HLManager.addHighlight src st = st) ∧
    (∀ src : HLManager.SourceReference,
      src.start_index = none ∨ src.end_index = none →
      HLManager.addHighlight src st = st) := by
  obtain ⟨hbounds, hnodup, hids⟩ := hinv
  have hnoop : ∀ src : HLManager.SourceReference,
      src.id ∈ st.highlightedSourceIds → HLManager.addHighlight src st = st := by
    intro src hmem
    have hany : st.highlights.any (fun h => decide (h.id = src.id)) = true := by
      rw [List.any_eq_true]
      rw [hids] at hmem
      obtain ⟨h, hh, hid⟩ := List.mem_map.mp hmem
      exact ⟨h, hh, by simp [hid]⟩
    cases hs : src.start_index with
    | none => simp [HLManager.addHighlight, hs]
    | some s =>
      cases he : src.end_index with
      | none => simp [HLManager.addHighlight, hs, he]
      | some e =>
        by_cases hvalid : s < 0 ∨ e ≤ s
        · simp [HLManager.addHighlight, hs, he, hvalid]
        · simp [HLManager.addHighlight, hs, he, hvalid, hany, hmem]
  refine ⟨addHighlight_inv st ⟨hbounds, hnodup, hids⟩,
    removeHighlight_inv st ⟨hbounds, hnodup, hids⟩,
    ⟨by simp [HLManager.clearHighlights], by simp [HLManager.clearHighlights],
      by simp [HLManager.clearHighlights]⟩, ?_, hnoop, ?_, ?_⟩
  · intro src
    by_cases hmem : src.id ∈ st.highlightedSourceIds
    · rw [HLManager.toggleHighlight, if_pos hmem]
      exact removeHighlight_inv st ⟨hbounds, hnodup, hids⟩ src.id
    · rw [HLManager.toggleHighlight, if_neg hmem]
      exact addHighlight_inv st ⟨hbounds, hnodup, hids⟩ src
  · intro src s e hs he hvalid
    simp [HLManager.addHighlight, hs, he, hvalid]
  · intro src hmiss
    rcases hmiss with hmiss | hmiss
    · simp [HLManager.addHighlight, hmiss]
    · cases hs : src.start_index with
      | none => simp [HLManager.addHighlight, hs]
      | some s => simp [HLManager.addHighlight, hs, hmiss]

/-- Witness for C10: from the empty state (which satisfies the invariant),
adding a valid source yields a state satisfying the invariant. -/
theorem useHighlightManager_invariant_witness :
    HLManager.Inv (HLManager.addHighlight
      ⟨"s1", "some text", some 3, some 8, none, none⟩ ⟨[], []⟩) :=
  (useHighlightManager_invariant ⟨[], []⟩ ⟨by simp, by simp, rfl⟩).1
    ⟨"s1", "some text", some 3, some 8, none, none⟩
